import Mathlib

/-!
# Verification of the IPTV source validation and channel resolution engine

Shallow embedding of `src/checker.py` (`IPTVSourceChecker`) and
`src/merger.py` (`IPTVSourceMerger`).  External effects (the `ffprobe`
subprocess, the thread pool) are modelled as explicit environment functions
passed to the embedded operations; Python dicts are modelled as association
lists in insertion order (Python 3.7+ dict semantics), and Python's float
latencies as `WithTop ℚ` (`⊤` standing for `float('inf')`).
-/

/-- Latency: a rational duration or infinity (`float('inf')`). -/
abbrev Latency := WithTop ℚ

/-- A channel's declared attribute mapping (a Python dict `str → str`),
modelled as an association list in insertion order with distinct keys;
lookups take the first binding. -/
abbrev Info := List (String × String)

/-- Model of `info.get(key)`: first binding of `key`. -/
def getInfo (info : Info) (key : String) : Option String :=
  match info with
  | [] => none
  | (k, v) :: rest => if k = key then some v else getInfo rest key

/-- Model of `info[key] = value` on a dict: overwrite in place if the key exists,
else append a new binding at the end. -/
def setInfo (info : Info) (key val : String) : Info :=
  match info with
  | [] => [(key, val)]
  | (k, v) :: rest => if k = key then (k, val) :: rest else (k, v) :: setInfo rest key val

/-- Python `str.lower()` restricted to ASCII case mapping (the CJK characters
appearing in this program are unaffected by `lower`, as in Python). -/
def pyLower (s : String) : String := ⟨s.data.map Char.toLower⟩

/-- Model of `a.startswith(b)` / anchored regex literal match, on character lists. -/
def listPrefix : List Char → List Char → Bool
  | [], _ => true
  | _ :: _, [] => false
  | a :: as, b :: bs => a == b && listPrefix as bs

/-- Python `needle in haystack` substring test, on character lists. -/
def listInfix (needle : List Char) : List Char → Bool
  | [] => listPrefix needle []
  | c :: cs => listPrefix needle (c :: cs) || listInfix needle cs

/-- Python `needle in haystack` for strings. -/
def strContains (haystack needle : String) : Bool :=
  listInfix needle.data haystack.data

/- ## Probe Executor (`IPTVSourceChecker._check_source`) -/

/-- Outcome of the `subprocess.run(["ffprobe", ...])` call issued by
`_check_source` for one URL: it either completes (with an exit code, captured
stdout and a measured wall-clock duration), hits the configured timeout
(`subprocess.TimeoutExpired`), or raises some other exception (process launch
failure, network error, ...). -/
inductive ProbeOutcome where
  | completed (returncode : Int) (stdout : String) (elapsed : ℚ)
  | timeout
  | exn
deriving DecidableEq

/-- The probe environment: what the ffprobe subprocess does for a given URL
under a given timeout. -/
abbrev ProbeEnv := String → ℚ → ProbeOutcome

/-- Model of `b"streams" in process.stdout`: the validity marker `_check_source`
looks for in the captured ffprobe output (the code operationalizes "a video
stream was found" as the presence of this marker; stdout is all it sees). -/
def hasStreamsMarker (stdout : String) : Bool :=
  strContains stdout "streams"

/-- Model of `IPTVSourceChecker._check_source(url)`: returns `(is_valid, latency)`.
`is_valid = process.returncode == 0 and b"streams" in process.stdout` with
the measured latency on completion; `(False, float('inf'))` on
`subprocess.TimeoutExpired` and on any other exception.  Total by
construction: every outcome of the subprocess maps to a result, nothing
propagates to the caller. -/
def check_source (penv : ProbeEnv) (check_timeout : ℚ) (url : String) : Bool × Latency :=
  match penv url check_timeout with
  | .completed rc stdout elapsed => (rc == 0 && hasStreamsMarker stdout, (elapsed : Latency))
  | .timeout => (false, ⊤)
  | .exn => (false, ⊤)

/- ## Concurrent Checker (`IPTVSourceChecker.check`) -/

/-- Per-channel check result: the declared info plus the accumulated
`(url, is_valid, latency)` tuples. -/
structure CheckResult where
  info : Info
  sources : List (String × Bool × Latency)
deriving DecidableEq

/-- The input mapping `channels : id → (info, urls)` in insertion order. -/
abbrev Channels := List (String × Info × List String)

/-- The task list: one `(channel_id, info, url)` triple per `(channel, url)`
pair, in the order `check` builds `check_tasks`. -/
def check_tasks (channels : Channels) : List (String × Info × String) :=
  channels.flatMap (fun c => c.2.2.map (fun u => (c.1, c.2.1, u)))

/-- The task environment: for each URL, either the `(is_valid, latency)`
result of its probe task, or `none` when `future.result()` raises an
unexpected exception (the task "fails ungracefully"). -/
abbrev TaskEnv := String → Option (Bool × Latency)

/-- Record one completed task's tuple under its channel id, mirroring
`self.results[channel_id]["sources"].append(...)` (the entry is created with
the channel's info on its first completed task). -/
def addResult (acc : List (String × CheckResult)) (cid : String) (info : Info)
    (src : String × Bool × Latency) : List (String × CheckResult) :=
  match acc with
  | [] => [(cid, ⟨info, [src]⟩)]
  | (c, r) :: rest =>
    if c = cid then (c, ⟨r.info, r.sources ++ [src]⟩) :: rest
    else (c, r) :: addResult rest cid info src

/-- Model of `IPTVSourceChecker.check(channels)`: dispatch one probe task per
`(channel, url)` pair and aggregate completed tasks in task order (the code
iterates the futures dict, which preserves submission order); a task whose
`future.result()` raises is logged and skipped — no tuple is recorded for
it. -/
def check (tenv : TaskEnv) (channels : Channels) : List (String × CheckResult) :=
  (check_tasks channels).foldl
    (fun acc t =>
      match tenv t.2.2 with
      | none => acc
      | some (v, l) => addResult acc t.1 t.2.1 (t.2.2, v, l))
    []

/-- The source list recorded for a channel id (empty when the id is absent). -/
def sourcesOf (acc : List (String × CheckResult)) (cid : String) :
    List (String × Bool × Latency) :=
  match acc with
  | [] => []
  | (c, r) :: rest => if c = cid then r.sources else sourcesOf rest cid

/-- One step of the aggregation loop in `check`. -/
def checkStep (tenv : TaskEnv) (acc : List (String × CheckResult))
    (t : String × Info × String) : List (String × CheckResult) :=
  match tenv t.2.2 with
  | none => acc
  | some (v, l) => addResult acc t.1 t.2.1 (t.2.2, v, l)

/- ## Name Normalizer (`IPTVSourceMerger.normalize_channel_name`)

The normalization table `channel_name_map` is an ordered dict of regex
patterns.  Every pattern has the form `L₁|...|Lₖ` of literal alternatives
followed by `(\s|-|_|.)*`; since `\s|-|_|.` matches any character and the
group is starred (it may match the empty string), `re.match(pattern, s)`
holds exactly when `s` starts with one of the literal alternatives
(`cctv-?N` contributes the two literals `cctvN` and `cctv-N`).  Rules are
kept in the source's insertion order; matching is case-sensitive against the
lower-cased name, exactly as in the code (so the upper-case literals `TVBS`,
`J2`, `RTHK` can never fire). -/

/-- One normalization rule: literal prefix alternatives and the canonical
name. -/
abbrev NameRule := List String × String

/-- Rules 央视频道标准化, `cctv-?1` .. `cctv-?5`. -/
def cctvRulesA : List NameRule := [
  (["cctv1", "cctv-1"], "CCTV-1 综合"),
  (["cctv2", "cctv-2"], "CCTV-2 财经"),
  (["cctv3", "cctv-3"], "CCTV-3 综艺"),
  (["cctv4", "cctv-4"], "CCTV-4 中文国际"),
  (["cctv5", "cctv-5"], "CCTV-5 体育")]

/-- Rule `cctv-?5\+`. -/
def cctv5PlusRule : NameRule := (["cctv5+", "cctv-5+"], "CCTV-5+ 体育赛事")

/-- Rules `cctv-?6` .. `cctv-?9`. -/
def cctvRulesB : List NameRule := [
  (["cctv6", "cctv-6"], "CCTV-6 电影"),
  (["cctv7", "cctv-7"], "CCTV-7 国防军事"),
  (["cctv8", "cctv-8"], "CCTV-8 电视剧"),
  (["cctv9", "cctv-9"], "CCTV-9 纪录")]

/-- Rules `cctv-?10` .. `cctv-?17`. -/
def cctvRulesC : List NameRule := [
  (["cctv10", "cctv-10"], "CCTV-10 科教"),
  (["cctv11", "cctv-11"], "CCTV-11 戏曲"),
  (["cctv12", "cctv-12"], "CCTV-12 社会与法"),
  (["cctv13", "cctv-13"], "CCTV-13 新闻"),
  (["cctv14", "cctv-14"], "CCTV-14 少儿"),
  (["cctv15", "cctv-15"], "CCTV-15 音乐"),
  (["cctv16", "cctv-16"], "CCTV-16 奥林匹克"),
  (["cctv17", "cctv-17"], "CCTV-17 农业农村")]

/-- Rules 卫视频道标准化 and 港澳台频道标准化, in source order. -/
def restNameRules : List NameRule := [
  (["湖南", "湖南卫视"], "湖南卫视"),
  (["浙江", "浙江卫视"], "浙江卫视"),
  (["江苏", "江苏卫视"], "江苏卫视"),
  (["东方", "东方卫视"], "东方卫视"),
  (["北京", "北京卫视"], "北京卫视"),
  (["广东", "广东卫视"], "广东卫视"),
  (["深圳", "深圳卫视"], "深圳卫视"),
  (["山东", "山东卫视"], "山东卫视"),
  (["湖北", "湖北卫视"], "湖北卫视"),
  (["安徽", "安徽卫视"], "安徽卫视"),
  (["东南", "福建", "东南卫视", "福建卫视"], "东南卫视"),
  (["江西", "江西卫视"], "江西卫视"),
  (["河南", "河南卫视"], "河南卫视"),
  (["河北", "河北卫视"], "河北卫视"),
  (["山西", "山西卫视"], "山西卫视"),
  (["辽宁", "辽宁卫视"], "辽宁卫视"),
  (["吉林", "吉林卫视"], "吉林卫视"),
  (["黑龙江", "黑龙江卫视"], "黑龙江卫视"),
  (["广西", "广西卫视"], "广西卫视"),
  (["云南", "云南卫视"], "云南卫视"),
  (["贵州", "贵州卫视"], "贵州卫视"),
  (["四川", "四川卫视"], "四川卫视"),
  (["重庆", "重庆卫视"], "重庆卫视"),
  (["陕西", "陕西卫视"], "陕西卫视"),
  (["甘肃", "甘肃卫视"], "甘肃卫视"),
  (["宁夏", "宁夏卫视"], "宁夏卫视"),
  (["青海", "青海卫视"], "青海卫视"),
  (["新疆", "新疆卫视"], "新疆卫视"),
  (["西藏", "西藏卫视"], "西藏卫视"),
  (["内蒙古", "内蒙古卫视"], "内蒙古卫视"),
  (["海南", "海南卫视"], "海南卫视"),
  (["翡翠台", "TVB翡翠台"], "翡翠台"),
  (["明珠台", "TVB明珠台"], "明珠台"),
  (["J2", "TVB J2"], "J2"),
  (["凤凰中文", "凤凰卫视中文台"], "凤凰卫视中文台"),
  (["凤凰资讯", "凤凰卫视资讯台"], "凤凰卫视资讯台"),
  (["凤凰香港", "凤凰卫视香港台"], "凤凰卫视香港台"),
  (["香港台", "RTHK", "RTHK31", "RTHK32"], "香港电台"),
  (["澳门", "澳视", "澳亚", "澳视澳门", "澳门卫视"], "澳门卫视"),
  (["台湾", "台视", "中视", "华视", "民视"], "台湾电视台"),
  (["TVBS", "TVBS新闻台"], "TVBS新闻台")]

/-- The full ordered rule table (`self.channel_name_map`, insertion order). -/
def channel_name_map : List NameRule :=
  cctvRulesA ++ [cctv5PlusRule] ++ cctvRulesB ++ cctvRulesC ++ restNameRules

/-- The rules that can actually fire as the first match: `cctv-?5\+` is
shadowed by `cctv-?5`, and `cctv-?10` .. `cctv-?17` are shadowed by
`cctv-?1`, because a name starting with the longer literal also starts with
the shorter literal of the earlier rule. -/
def liveNameMap : List NameRule := cctvRulesA ++ cctvRulesB ++ restNameRules

/-- First-match lookup over the ordered rule table (the `for pattern,
normalized_name in self.channel_name_map.items()` loop). -/
def lookupMap : List NameRule → List Char → Option String
  | [], _ => none
  | (pats, canon) :: rest, s =>
    if pats.any (fun p => listPrefix p.data s) then some canon else lookupMap rest s

/-- Model of `IPTVSourceMerger.normalize_channel_name(name)`: empty (falsy) names are
returned unchanged; otherwise the first matching rule's canonical name is
returned, or the name unchanged if no rule matches.  Total by
construction. -/
def normalize_channel_name (name : String) : String :=
  if name = "" then name
  else
    match lookupMap channel_name_map (pyLower name).data with
    | some canon => canon
    | none => name

/- ## Identity Verifier (`IPTVSourceMerger.verify_channel`) -/

/-- Keywords 可疑频道关键词 (`self.suspicious_keywords`), in source order. -/
def suspicious_keywords : List String := [
  "xxx", "adult", "porn", "成人", "福利", "深夜", "午夜", "限制",
  "movie", "cinema", "film", "电影", "影院",
  "sports", "espn", "sky", "star", "体育", "赛事",
  "fox", "hbo", "cnn", "bbc", "nbc", "abc", "cbs",
  "discovery", "national", "animal", "history",
  "disney", "cartoon", "动画", "卡通"]

/-- The lower-cased declared title, `claimed_info.get('title', '').lower()`. -/
def claimedNameOf (claimed_info : Info) : String :=
  pyLower ((getInfo claimed_info "title").getD "")

/-- Model of `need_verification`: a suspicious keyword occurs in the lower-cased
declared title, or it carries a national-broadcaster marker (`cctv` /
`央视`). -/
def needVerification (claimed_name : String) : Bool :=
  suspicious_keywords.any (fun k => strContains claimed_name k) ||
    strContains claimed_name "cctv" || strContains claimed_name "央视"

/-- Python `\w` word character, modelled for the alphabets this program
handles: ASCII alphanumerics, underscore, and CJK unified ideographs (all
word characters for Python's Unicode `\w`). -/
def isWordChar (c : Char) : Bool :=
  c.isAlphanum || c == '_' ||
    (decide (0x4E00 ≤ c.toNat) && decide (c.toNat ≤ 0x9FFF))

/-- Model of `re.findall(r'\w+', s)`: the maximal runs of word characters, in order
(`acc` holds the current run, reversed). -/
def wordRuns : List Char → List Char → List String
  | [], acc => if acc.isEmpty then [] else [⟨acc.reverse⟩]
  | c :: cs, acc =>
    if isWordChar c then wordRuns cs (c :: acc)
    else if acc.isEmpty then wordRuns cs []
    else ⟨acc.reverse⟩ :: wordRuns cs []

/-- Model of `set(re.findall(r'\w+', s))`: the distinct word tokens. -/
def tokenSet (s : String) : List String := (wordRuns s.data []).dedup

/-- Model of `claimed_keywords.intersection(actual_keywords)` (distinct common
tokens). -/
def overlapTokens (cn an : String) : List String :=
  (tokenSet cn).filter (fun t => decide (t ∈ tokenSet an))

/-- The broadcaster-prefix check: declared name contains `cctv` but the
actual name does not. -/
def cctvMismatch (cn an : String) : Bool :=
  strContains cn "cctv" && !(strContains an "cctv")

/-- Model of `len(overlap) < min(1, len(claimed_keywords) // 3)` (integer division/
truncation as in Python). -/
def overlapDeficient (cn an : String) : Bool :=
  decide ((overlapTokens cn an).length < min 1 ((tokenSet cn).length / 3))

/-- A JSON object's `tags` sub-dict, when present. -/
structure FfProgram where
  tags : Option (List (String × String))
deriving DecidableEq

/-- A stream object of the ffprobe JSON output. -/
structure FfStream where
  tags : Option (List (String × String))
deriving DecidableEq

/-- The parsed ffprobe JSON document: the `programs` / `streams` keys, when
present. -/
structure FfprobeData where
  programs : Option (List FfProgram)
  streams : Option (List FfStream)
deriving DecidableEq

/-- The programs loop: first program whose tags hold `service_name`. -/
def progName : List FfProgram → Option String
  | [] => none
  | p :: ps =>
    match p.tags with
    | some tags =>
      match getInfo tags "service_name" with
      | some v => some v
      | none => progName ps
    | none => progName ps

/-- The streams loop: first stream whose tags hold `title`, else
`service_name`. -/
def streamName : List FfStream → Option String
  | [] => none
  | s :: ss =>
    match s.tags with
    | some tags =>
      match getInfo tags "title" with
      | some v => some v
      | none =>
        match getInfo tags "service_name" with
        | some v => some v
        | none => streamName ss
    | none => streamName ss

/-- Python truthiness of the `actual_name` variable: `None` and the empty
string are falsy. -/
def truthyName : Option String → Bool
  | none => false
  | some s => decide (s ≠ "")

/-- The `actual_name` that reaches the `if actual_name:` guard: the
programs loop value if truthy, else the streams loop value if truthy
(running the loops over an absent or empty list yields nothing, like the
code's emptiness guards); a falsy final value means no name was
recovered. -/
def recoveredName (d : FfprobeData) : Option String :=
  let a1 : Option String :=
    match d.programs with
    | some ps => progName ps
    | none => none
  let a2 : Option String :=
    match d.streams with
    | some ss => streamName ss
    | none => none
  if truthyName a1 then a1 else if truthyName a2 then a2 else none

/-- Outcome of the `subprocess.run(['ffprobe', ...])` call in
`verify_channel`: completes with exit code 0 and JSON-parsable stdout,
completes with exit code 0 but unparsable stdout (`json.loads` raises),
completes with a nonzero exit code, or raises (timeout, launch failure,
network error). -/
inductive VerifyOutcome where
  | ok (data : FfprobeData)
  | okBadJson
  | fail
  | exn
deriving DecidableEq

/-- The probe environment for identity verification. -/
abbrev VerifyEnv := String → VerifyOutcome

/-- Model of `IPTVSourceMerger.verify_channel(url, claimed_info)`: skip (verified)
unless the declared title is suspicious; on any error during inspection
return verified (fail-open); on success, reject only when a recovered
actual name fails the broadcaster-prefix check or the token-overlap
threshold. -/
def verify_channel (venv : VerifyEnv) (url : String) (claimed_info : Info) : Bool × Info :=
  if needVerification (claimedNameOf claimed_info) = false then (true, claimed_info)
  else
    match venv url with
    | .exn => (true, claimed_info)
    | .okBadJson => (true, claimed_info)
    | .fail => (true, claimed_info)
    | .ok data =>
      match recoveredName data with
      | none => (true, claimed_info)
      | some actual =>
        if cctvMismatch (claimedNameOf claimed_info) (pyLower actual) then (false, claimed_info)
        else if overlapDeficient (claimedNameOf claimed_info) (pyLower actual) then (false, claimed_info)
        else (true, claimed_info)

/-- Concrete data for the C6 analysis: a successful inspection recovering
the actual service name `zdf`. -/
def c6Data : FfprobeData := ⟨some [⟨some [("service_name", "zdf")]⟩], none⟩

/- ## Stable sorting by a key

Python's `list.sort(key=...)` / `sorted(..., key=...)` are stable sorts.
They are modelled by a stable insertion sort parameterized by the key
function; `firstMinK` characterizes the head of the sorted list (the
first-encountered minimum, which is all the code uses after sorting). -/

section StableSort

variable {α : Type} {β : Type} [LinearOrder β]

/-- Insert `x` (an element earlier in the input than everything in `l`)
before the first element of `l` whose key is `≥ key x`; this is the stable
position. -/
def insertK (key : α → β) (x : α) : List α → List α
  | [] => [x]
  | y :: ys => if key x ≤ key y then x :: y :: ys else y :: insertK key x ys

/-- Stable sort by `key` (model of Python's stable `sort`). -/
def sortK (key : α → β) : List α → List α
  | [] => []
  | x :: xs => insertK key x (sortK key xs)

/-- The first element of `l` attaining the minimal key (later elements
replace the accumulator only on strict improvement). -/
def firstMinK (key : α → β) : List α → Option α
  | [] => none
  | x :: xs =>
    match firstMinK key xs with
    | none => some x
    | some m => if key x ≤ key m then some x else some m

/-- Combine two optional minima, the left one being earlier in the input. -/
def combineK (key : α → β) : Option α → Option α → Option α
  | none, b => b
  | some x, none => some x
  | some x, some m => if key x ≤ key m then some x else some m

end StableSort

/- ## Resolver/Merger (`IPTVSourceMerger.merge`) -/

/-- One resolved record of `channels_by_name` / `final_channels`: the
(re-titled) attributes, the chosen source URL and its latency. -/
structure MergedRec where
  info : Info
  source : String
  latency : Latency
deriving DecidableEq

/-- Model of `title = info.get('title', '')`. -/
def entryTitle (r : CheckResult) : String := (getInfo r.info "title").getD ""

/-- Model of `normalized_title`. -/
def entryCanon (r : CheckResult) : String := normalize_channel_name (entryTitle r)

/-- The attributes after the guarded `info['title'] = normalized_title`
(a no-op when the title is unchanged). -/
def entryInfo (r : CheckResult) : Info :=
  if entryCanon r ≠ entryTitle r then setInfo r.info "title" (entryCanon r) else r.info

/-- Model of `valid_sources`: the `(url, latency)` pairs whose probe was valid and
whose identity verifies (the verifier sees the re-titled attributes). -/
def entryVVS (venv : VerifyEnv) (r : CheckResult) : List (String × Latency) :=
  r.sources.filterMap (fun s =>
    if s.2.1 && (verify_channel venv s.1 (entryInfo r)).1 then some (s.1, s.2.2) else none)

/-- Step 1 for one checker entry: sort the valid verified sources by
latency (stable) and keep the best (`valid_sources[0]`); `none` when the
channel has no surviving source and is skipped. -/
def processEntry (venv : VerifyEnv) (r : CheckResult) : Option MergedRec :=
  match (sortK (fun s => s.2) (entryVVS venv r)).head? with
  | none => none
  | some best => some ⟨entryInfo r, best.1, best.2⟩

/-- Model of `channels_by_name[normalized_title].append(...)`: append the record to
its group, keeping defaultdict key insertion order. -/
def addGroup : List (String × List MergedRec) → String → MergedRec →
    List (String × List MergedRec)
  | [], k, m => [(k, [m])]
  | (k', recs) :: gs, k, m =>
    if k' = k then (k', recs ++ [m]) :: gs else (k', recs) :: addGroup gs k m

/-- One step of the grouping loop: a channel with no surviving source is
skipped, otherwise its best record joins its canonical name's group. -/
def groupStep (venv : VerifyEnv) (gs : List (String × List MergedRec))
    (e : String × CheckResult) : List (String × List MergedRec) :=
  match processEntry venv e.2 with
  | none => gs
  | some m => addGroup gs (entryCanon e.2) m

/-- The grouping pass over the checker results (insertion order). -/
def groupsOf (venv : VerifyEnv) (results : List (String × CheckResult)) :
    List (String × List MergedRec) :=
  results.foldl (groupStep venv) []

/-- Step 2: per canonical name, sort the contributed records by latency
(stable) and keep the first (`sources[0]`). -/
def mergeGroups (gs : List (String × List MergedRec)) : List (String × MergedRec) :=
  gs.filterMap (fun g =>
    ((sortK (fun m => m.latency) g.2).head?).map (fun b => (g.1, b)))

/-- Model of `IPTVSourceMerger.merge` (channel resolution; the M3U serialization is
out of the data path): the `final_channels` list of
`(channel_name, best_channel)`. -/
def merge (venv : VerifyEnv) (results : List (String × CheckResult)) :
    List (String × MergedRec) :=
  mergeGroups (groupsOf venv results)

/-- All valid verified sources contributing to a canonical name, in input
iteration order. -/
def allVVS (venv : VerifyEnv) (results : List (String × CheckResult)) (c : String) :
    List (String × Latency) :=
  (results.filter (fun e => decide (entryCanon e.2 = c))).flatMap
    (fun e => entryVVS venv e.2)

/-- The per-entry best records contributing to canonical name `c`, in input
order. -/
def bestsOf (venv : VerifyEnv) (results : List (String × CheckResult)) (c : String) :
    List MergedRec :=
  results.filterMap (fun e =>
    if entryCanon e.2 = c then processEntry venv e.2 else none)

/-- The record list of group `c` (first matching key; empty when absent). -/
def groupRecs (gs : List (String × List MergedRec)) (c : String) : List MergedRec :=
  match gs with
  | [] => []
  | (k, recs) :: rest => if k = c then recs else groupRecs rest c

/-- The source/latency pair of a resolved record. -/
def pairOf (m : MergedRec) : String × Latency := (m.source, m.latency)

/-- Concrete verification environment for the merge witnesses: the
inspection always raises, so every suspicious channel passes fail-open. -/
def mVenv0 : VerifyEnv := fun _ => .exn

/-- Concrete checker results: two channels whose titles normalize to the
same canonical name, with latencies 3 (valid), 1 (invalid) and 2 (valid). -/
def mResults0 : List (String × CheckResult) := [
  ("ch1", ⟨[("title", "CCTV1")],
    [("http://a", true, (3 : Latency)), ("http://b", false, (1 : Latency))]⟩),
  ("ch2", ⟨[("title", "cctv-1hd")], [("http://c", true, (2 : Latency))]⟩)]

/- ## Category Sorter (`IPTVSourceMerger._sort_channels_by_category`) -/

/-- The last index of `g` in `cats`, offset by `base`: models
`{cat: idx for idx, cat in enumerate(...)}` where a later duplicate
overrides an earlier one, combined with `.get`. -/
def lastIdxFrom (base : Nat) (g : String) : List String → Option Nat
  | [] => none
  | c :: cs =>
    match lastIdxFrom (base + 1) g cs with
    | some i => some i
    | none => if c = g then some base else none

/-- Model of `get_category_order(channel_data)`:
`category_order.get(info.get("group-title", "其他"), default_order)` with
`default_order = len(category_order)` — the length of the *dict*
`{cat: idx for idx, cat in enumerate(...)}`, i.e. the number of distinct
configured categories (`cats.dedup.length`), not the raw list length. -/
def categoryRank (cats : List String) (info : Info) : Nat :=
  match lastIdxFrom 0 ((getInfo info "group-title").getD "其他") cats with
  | some i => i
  | none => cats.dedup.length

/-- Model of `sorted(channels, key=get_category_order)` — a stable sort by rank. -/
def sort_channels_by_category (cats : List String)
    (channels : List (String × MergedRec)) : List (String × MergedRec) :=
  sortK (fun ch => categoryRank cats ch.2.info) channels

/-- Concrete channel with a known category. -/
def c8A : String × MergedRec :=
  ("新闻频道", ⟨[("group-title", "新闻")], "u", (1 : Latency)⟩)

/-- Concrete channel with a missing `group-title`. -/
def c8B : String × MergedRec := ("frei", ⟨[("title", "b")], "v", (1 : Latency)⟩)

/- ## Theorems -/

theorem listPrefix_trans {p q s : List Char} (hpq : listPrefix p q = true)
    (hqs : listPrefix q s = true) : listPrefix p s = true := by
  induction p generalizing q s with
  | nil => rfl
  | cons a as ih =>
    cases q with
    | nil => simp [listPrefix] at hpq
    | cons b bs =>
      cases s with
      | nil => simp [listPrefix] at hqs
      | cons c cs =>
        simp only [listPrefix, Bool.and_eq_true, beq_iff_eq] at hpq hqs ⊢
        exact ⟨hpq.1.trans hqs.1, ih hpq.2 hqs.2⟩

theorem listPrefix_false_of_ext {p q : List Char} (s : List Char)
    (hpq : listPrefix p q = true) (hp : listPrefix p s = false) :
    listPrefix q s = false := by
  cases hq : listPrefix q s
  · rfl
  · rw [listPrefix_trans hpq hq] at hp
    cases hp

theorem lookupMap_append (l1 l2 : List NameRule) (s : List Char) :
    lookupMap (l1 ++ l2) s = (lookupMap l1 s).orElse (fun _ => lookupMap l2 s) := by
  induction l1 with
  | nil => rfl
  | cons r rest ih =>
    obtain ⟨pats, canon⟩ := r
    by_cases h : (pats.any fun p => listPrefix p.data s) = true
    · simp [lookupMap, h, Option.orElse]
    · simp only [List.cons_append, lookupMap, if_neg h]
      exact ih

theorem lookupMap_eq_none (l : List NameRule) (s : List Char) :
    lookupMap l s = none ↔
      ∀ r ∈ l, (r.1.any fun p => listPrefix p.data s) = false := by
  induction l with
  | nil => simp [lookupMap]
  | cons r rest ih =>
    obtain ⟨pats, canon⟩ := r
    by_cases h : (pats.any fun p => listPrefix p.data s) = true
    · rw [lookupMap, if_pos h]
      constructor
      · intro hfalse
        cases hfalse
      · intro hall
        exact absurd (hall (pats, canon) (List.mem_cons_self _ _)) (by simp [h])
    · simp only [lookupMap, if_neg h, ih, List.mem_cons]
      constructor
      · intro hall r' hr'
        rcases hr' with hr' | hr'
        · subst hr'
          exact Bool.eq_false_iff.mpr h
        · exact hall r' hr'
      · intro hall r' hr'
        exact hall r' (Or.inr hr')

theorem lookupMap_mem (l : List NameRule) (s : List Char) (v : String)
    (h : lookupMap l s = some v) : v ∈ l.map (fun r => r.2) := by
  induction l with
  | nil => cases h
  | cons r rest ih =>
    obtain ⟨pats, canon⟩ := r
    by_cases hm : (pats.any fun p => listPrefix p.data s) = true
    · rw [lookupMap, if_pos hm] at h
      cases h
      exact List.mem_cons_self _ _
    · rw [lookupMap, if_neg hm] at h
      exact List.mem_cons_of_mem _ (ih h)

theorem lookup_cctv5plus_none (s : List Char) (h : lookupMap cctvRulesA s = none) :
    lookupMap [cctv5PlusRule] s = none := by
  have h5 := (lookupMap_eq_none cctvRulesA s).mp h (["cctv5", "cctv-5"], "CCTV-5 体育")
    (by simp [cctvRulesA])
  simp only [List.any_cons, List.any_nil, Bool.or_false, Bool.or_eq_false_iff] at h5
  have e1 : listPrefix "cctv5+".data s = false :=
    listPrefix_false_of_ext s (by decide) h5.1
  have e2 : listPrefix "cctv-5+".data s = false :=
    listPrefix_false_of_ext s (by decide) h5.2
  simp [lookupMap, cctv5PlusRule, e1, e2]

theorem lookup_cctvC_none (s : List Char) (h : lookupMap cctvRulesA s = none) :
    lookupMap cctvRulesC s = none := by
  have h1 := (lookupMap_eq_none cctvRulesA s).mp h (["cctv1", "cctv-1"], "CCTV-1 综合")
    (by simp [cctvRulesA])
  simp only [List.any_cons, List.any_nil, Bool.or_false, Bool.or_eq_false_iff] at h1
  apply (lookupMap_eq_none cctvRulesC s).mpr
  intro r hr
  simp only [cctvRulesC, List.mem_cons, List.not_mem_nil, or_false] at hr
  rcases hr with rfl | rfl | rfl | rfl | rfl | rfl | rfl | rfl <;>
    simp only [List.any_cons, List.any_nil, Bool.or_false, Bool.or_eq_false_iff] <;>
    exact ⟨listPrefix_false_of_ext s (by decide) h1.1,
      listPrefix_false_of_ext s (by decide) h1.2⟩

theorem lookupMap_live_eq (s : List Char) :
    lookupMap channel_name_map s = lookupMap liveNameMap s := by
  rw [channel_name_map, liveNameMap]
  simp only [lookupMap_append]
  cases ha : lookupMap cctvRulesA s with
  | some v => simp [ha, Option.orElse]
  | none =>
    simp [ha, lookup_cctv5plus_none s ha, lookup_cctvC_none s ha, Option.orElse]
    cases lookupMap cctvRulesB s <;> rfl

/-- Every canonical name a live rule can produce is itself a fixed point of
the normalizer. -/
theorem live_rhs_fixed :
    ((liveNameMap.map (fun r => r.2)).all fun v => normalize_channel_name v == v) = true := by
  decide

/-- C7: `normalize_channel_name` is total (a function by construction) and
idempotent for every string input, returns the empty string unchanged, and
applies the ordered rule table to the lower-cased input with
first-matching-pattern-wins, returning the input unchanged when no rule
matches. -/
theorem normalize_name_total_idempotent :
    normalize_channel_name "" = "" ∧
    (∀ x, normalize_channel_name (normalize_channel_name x) = normalize_channel_name x) ∧
    (∀ x, x ≠ "" → lookupMap channel_name_map (pyLower x).data = none →
      normalize_channel_name x = x) ∧
    (∀ s pats canon rest, (pats.any fun p => listPrefix p.data s) = true →
      lookupMap ((pats, canon) :: rest) s = some canon) := by
  refine ⟨rfl, ?_, ?_, ?_⟩
  · intro x
    by_cases hx : x = ""
    · subst hx; rfl
    · cases hl : lookupMap channel_name_map (pyLower x).data with
      | none =>
        have hnx : normalize_channel_name x = x := by
          rw [normalize_channel_name, if_neg hx, hl]
        rw [hnx]
        exact hnx
      | some v =>
        have hnx : normalize_channel_name x = v := by
          rw [normalize_channel_name, if_neg hx, hl]
        have hv : v ∈ liveNameMap.map (fun r => r.2) := by
          rw [lookupMap_live_eq] at hl
          exact lookupMap_mem _ _ _ hl
        have hfix : normalize_channel_name v = v :=
          eq_of_beq (List.all_eq_true.mp live_rhs_fixed v hv)
        rw [hnx, hfix]
  · intro x hx hl
    rw [normalize_channel_name, if_neg hx, hl]
  · intro s pats canon rest h
    rw [lookupMap, if_pos h]

/-- Witness for C7 at concrete inputs: an unmatched name is returned
unchanged, and a matched prefix fires its rule. -/
theorem normalize_name_total_idempotent_witness :
    ("foo BAR" ≠ "" ∧ lookupMap channel_name_map (pyLower "foo BAR").data = none ∧
      normalize_channel_name "foo BAR" = "foo BAR") ∧
    ((["cctv1", "cctv-1"].any fun p => listPrefix p.data "cctv1 hd".data) = true ∧
      lookupMap ((["cctv1", "cctv-1"], "CCTV-1 综合") :: restNameRules) "cctv1 hd".data =
        some "CCTV-1 综合") :=
  ⟨⟨by decide, by decide,
      normalize_name_total_idempotent.2.2.1 "foo BAR" (by decide) (by decide)⟩,
    ⟨by decide, normalize_name_total_idempotent.2.2.2 "cctv1 hd".data ["cctv1", "cctv-1"]
      "CCTV-1 综合" restNameRules (by decide)⟩⟩

section StableSort

variable {α : Type} {β : Type} [LinearOrder β]

theorem firstMinK_eq_none (key : α → β) (l : List α) :
    firstMinK key l = none ↔ l = [] := by
  cases l with
  | nil => simp [firstMinK]
  | cons x xs =>
    simp only [firstMinK]
    cases firstMinK key xs
    · simp
    · simp only [List.cons_ne_nil, iff_false]
      split <;> simp

theorem firstMinK_cons (key : α → β) (x : α) (l : List α) :
    firstMinK key (x :: l) = combineK key (some x) (firstMinK key l) := by
  cases h : firstMinK key l with
  | none => simp [firstMinK, h, combineK]
  | some m => simp [firstMinK, h, combineK]

theorem head?_sortK (key : α → β) (l : List α) :
    (sortK key l).head? = firstMinK key l := by
  induction l with
  | nil => rfl
  | cons x xs ih =>
    rw [sortK, firstMinK_cons]
    cases hm : firstMinK key xs with
    | none =>
      rw [hm] at ih
      have hnil : sortK key xs = [] := by
        cases hs : sortK key xs with
        | nil => rfl
        | cons y ys => rw [hs] at ih; simp at ih
      rw [hnil]
      rfl
    | some m =>
      rw [hm] at ih
      cases hs : sortK key xs with
      | nil => rw [hs] at ih; simp at ih
      | cons y ys =>
        rw [hs] at ih
        simp only [List.head?_cons, Option.some.injEq] at ih
        subst ih
        simp only [insertK, combineK]
        split <;> simp

theorem combineK_assoc (key : α → β) (a b c : Option α) :
    combineK key (combineK key a b) c = combineK key a (combineK key b c) := by
  cases a with
  | none => rfl
  | some x =>
    cases b with
    | none => rfl
    | some m =>
      cases c with
      | none => by_cases h1 : key x ≤ key m <;> simp [combineK, h1]
      | some n =>
        by_cases h1 : key x ≤ key m <;> by_cases h2 : key m ≤ key n
        · have h3 : key x ≤ key n := le_trans h1 h2
          simp [combineK, h1, h2, h3]
        · simp [combineK, h1, h2]
        · simp [combineK, h1, h2]
        · have h3 : ¬key x ≤ key n :=
            not_le.mpr (lt_trans (not_le.mp h2) (not_le.mp h1))
          simp [combineK, h1, h2, h3]

theorem firstMinK_append (key : α → β) (l1 l2 : List α) :
    firstMinK key (l1 ++ l2) = combineK key (firstMinK key l1) (firstMinK key l2) := by
  induction l1 with
  | nil => rfl
  | cons x xs ih =>
    rw [List.cons_append, firstMinK_cons, ih, firstMinK_cons, combineK_assoc]

theorem firstMinK_spec (key : α → β) (l : List α) (m : α)
    (h : firstMinK key l = some m) :
    m ∈ l ∧ (∀ x ∈ l, key m ≤ key x) ∧
      ∃ l1 l2, l = l1 ++ m :: l2 ∧ ∀ x ∈ l1, key m < key x := by
  induction l generalizing m with
  | nil => simp [firstMinK] at h
  | cons x xs ih =>
    rw [firstMinK_cons] at h
    cases hm : firstMinK key xs with
    | none =>
      rw [hm] at h
      simp only [combineK, Option.some.injEq] at h
      have hxs : xs = [] := (firstMinK_eq_none key xs).mp hm
      subst h
      subst hxs
      exact ⟨List.mem_singleton.mpr rfl, by simp, [], [], rfl, by simp⟩
    | some m' =>
      rw [hm] at h
      simp only [combineK] at h
      obtain ⟨hmem, hmin, l1, l2, hsplit, hstrict⟩ := ih m' hm
      by_cases hle : key x ≤ key m'
      · rw [if_pos hle] at h
        cases h
        refine ⟨List.mem_cons_self _ _, ?_, [], xs, rfl, by simp⟩
        intro y hy
        rcases List.mem_cons.mp hy with hy | hy
        · subst hy; exact le_refl _
        · exact le_trans hle (hmin y hy)
      · rw [if_neg hle] at h
        cases h
        have hlt : key m < key x := not_le.mp hle
        refine ⟨List.mem_cons_of_mem _ hmem, ?_, x :: l1, l2, by rw [hsplit]; rfl, ?_⟩
        · intro y hy
          rcases List.mem_cons.mp hy with hy | hy
          · subst hy; exact le_of_lt hlt
          · exact hmin y hy
        · intro y hy
          rcases List.mem_cons.mp hy with hy | hy
          · subst hy; exact hlt
          · exact hstrict y hy

theorem insertK_perm (key : α → β) (x : α) (l : List α) :
    (insertK key x l).Perm (x :: l) := by
  induction l with
  | nil => exact List.Perm.refl _
  | cons y ys ih =>
    simp only [insertK]
    split
    · exact List.Perm.refl _
    · exact (List.Perm.cons y ih).trans (List.Perm.swap x y ys)

theorem sortK_perm (key : α → β) (l : List α) : (sortK key l).Perm l := by
  induction l with
  | nil => exact List.Perm.refl _
  | cons x xs ih =>
    exact (insertK_perm key x (sortK key xs)).trans (List.Perm.cons x ih)

theorem mem_insertK (key : α → β) (x a : α) (l : List α) :
    a ∈ insertK key x l ↔ a = x ∨ a ∈ l := by
  rw [(insertK_perm key x l).mem_iff, List.mem_cons]

theorem insertK_sorted (key : α → β) (x : α) (l : List α)
    (h : l.Pairwise (fun a b => key a ≤ key b)) :
    (insertK key x l).Pairwise (fun a b => key a ≤ key b) := by
  induction l with
  | nil => simp [insertK]
  | cons y ys ih =>
    rcases List.pairwise_cons.mp h with ⟨hy, hys⟩
    by_cases hxy : key x ≤ key y
    · rw [insertK, if_pos hxy]
      refine List.pairwise_cons.mpr ⟨?_, h⟩
      intro b hb
      rcases List.mem_cons.mp hb with hb | hb
      · subst hb; exact hxy
      · exact le_trans hxy (hy b hb)
    · rw [insertK, if_neg hxy]
      refine List.pairwise_cons.mpr ⟨?_, ih hys⟩
      intro b hb
      rcases (mem_insertK key x b ys).mp hb with hb | hb
      · subst hb
        exact le_of_lt (not_le.mp hxy)
      · exact hy b hb

theorem sortK_sorted (key : α → β) (l : List α) :
    (sortK key l).Pairwise (fun a b => key a ≤ key b) := by
  induction l with
  | nil => simp [sortK]
  | cons x xs ih => exact insertK_sorted key x (sortK key xs) ih

theorem filter_insertK (key : α → β) (x : α) (l : List α) (r : β) :
    (insertK key x l).filter (fun a => decide (key a = r)) =
      if key x = r then x :: l.filter (fun a => decide (key a = r))
      else l.filter (fun a => decide (key a = r)) := by
  induction l with
  | nil => by_cases hx : key x = r <;> simp [insertK, List.filter_cons, hx]
  | cons y ys ih =>
    by_cases hxy : key x ≤ key y
    · rw [insertK, if_pos hxy]
      by_cases hx : key x = r <;> simp [List.filter_cons, hx]
    · rw [insertK, if_neg hxy]
      have hyx : key y < key x := not_le.mp hxy
      by_cases hx : key x = r
      · have hy : ¬key y = r := by
          rw [← hx]; exact ne_of_lt hyx
        simp [List.filter_cons, hy, ih, hx]
      · by_cases hy : key y = r <;>
          simp [List.filter_cons, hy, ih, hx]

theorem filter_sortK (key : α → β) (l : List α) (r : β) :
    (sortK key l).filter (fun a => decide (key a = r)) =
      l.filter (fun a => decide (key a = r)) := by
  induction l with
  | nil => rfl
  | cons x xs ih =>
    rw [sortK, filter_insertK]
    by_cases hx : key x = r <;> simp [List.filter_cons, hx, ih]

end StableSort

/- ## Probe Executor claims -/

/-- C2: for every URL and timeout, the single-source probe never raises to
its caller (it is a total function of the subprocess outcome): on subprocess
timeout it returns `(is_valid := false, latency := ∞)`, and on any other
exception it also returns `(false, ∞)`. -/
theorem check_source_failure_isolation (penv : ProbeEnv) (tmo : ℚ) (url : String) :
    (penv url tmo = .timeout → check_source penv tmo url = (false, ⊤)) ∧
    (penv url tmo = .exn → check_source penv tmo url = (false, ⊤)) := by
  constructor <;> intro h <;> simp [check_source, h]

/-- Witness for C2 at a concrete environment, URL and timeout. -/
theorem check_source_failure_isolation_witness :
    ((fun (_ : String) (_ : ℚ) => ProbeOutcome.timeout) "http://x" 5 = .timeout) ∧
    check_source (fun _ _ => ProbeOutcome.timeout) 5 "http://x" = (false, ⊤) :=
  ⟨rfl, (check_source_failure_isolation (fun _ _ => ProbeOutcome.timeout) 5 "http://x").1 rfl⟩

/-- C5: for every URL, the probe reports `is_valid = true` iff the inspection
subprocess completes with exit code `0` and its captured output carries the
`"streams"` marker (the code's operationalization of "at least one video
stream was found"). -/
theorem check_source_valid_iff (penv : ProbeEnv) (tmo : ℚ) (url : String) :
    (check_source penv tmo url).1 = true ↔
      ∃ stdout elapsed, penv url tmo = .completed 0 stdout elapsed ∧
        hasStreamsMarker stdout = true := by
  constructor
  · intro h
    cases hp : penv url tmo with
    | completed rc stdout elapsed =>
      simp only [check_source, hp, Bool.and_eq_true, beq_iff_eq] at h
      exact ⟨stdout, elapsed, by rw [h.1], h.2⟩
    | timeout => simp [check_source, hp] at h
    | exn => simp [check_source, hp] at h
  · rintro ⟨stdout, elapsed, hp, hm⟩
    simp [check_source, hp, hm]

/-- Witness for C5 at a concrete environment. -/
theorem check_source_valid_iff_witness :
    (check_source (fun _ _ => ProbeOutcome.completed 0 "mock streams output" 1) 5 "u").1 = true :=
  (check_source_valid_iff (fun _ _ => ProbeOutcome.completed 0 "mock streams output" 1) 5 "u").2
    ⟨"mock streams output", 1, rfl, by decide⟩

/- ## Concurrent Checker claims -/

theorem sourcesOf_addResult_eq (acc : List (String × CheckResult)) (cid : String)
    (info : Info) (src : String × Bool × Latency) :
    sourcesOf (addResult acc cid info src) cid = sourcesOf acc cid ++ [src] := by
  induction acc with
  | nil => simp [addResult, sourcesOf]
  | cons p rest ih =>
    obtain ⟨c, r⟩ := p
    by_cases hc : c = cid
    · rw [addResult, if_pos hc]
      simp [sourcesOf, hc]
    · rw [addResult, if_neg hc]
      simp [sourcesOf, hc, ih]

theorem sourcesOf_addResult_ne (acc : List (String × CheckResult)) (cid c' : String)
    (info : Info) (src : String × Bool × Latency) (hne : c' ≠ cid) :
    sourcesOf (addResult acc cid info src) c' = sourcesOf acc c' := by
  induction acc with
  | nil => simp [addResult, sourcesOf, Ne.symm hne]
  | cons p rest ih =>
    obtain ⟨c, r⟩ := p
    by_cases hc : c = cid
    · rw [addResult, if_pos hc]
      have hcc' : ¬c = c' := by rw [hc]; exact Ne.symm hne
      simp [sourcesOf, hcc']
    · rw [addResult, if_neg hc]
      by_cases hc' : c = c' <;> simp [sourcesOf, hc', ih]

theorem check_eq_foldl (tenv : TaskEnv) (channels : Channels) :
    check tenv channels = (check_tasks channels).foldl (checkStep tenv) [] := by
  rfl

theorem sourcesOf_foldl (tenv : TaskEnv) (tasks : List (String × Info × String))
    (acc : List (String × CheckResult)) (cid : String) :
    sourcesOf (tasks.foldl (checkStep tenv) acc) cid =
      sourcesOf acc cid ++
        tasks.filterMap (fun t =>
          if t.1 = cid then (tenv t.2.2).map (fun vl => (t.2.2, vl.1, vl.2)) else none) := by
  induction tasks generalizing acc with
  | nil => simp
  | cons t ts ih =>
    rw [List.foldl_cons, List.filterMap_cons, ih]
    cases ht : tenv t.2.2 with
    | none =>
      have hstep : checkStep tenv acc t = acc := by rw [checkStep, ht]
      by_cases hc : t.1 = cid <;> simp [hstep, hc, ht]
    | some vl =>
      obtain ⟨v, l⟩ := vl
      have hstep : checkStep tenv acc t = addResult acc t.1 t.2.1 (t.2.2, v, l) := by
        rw [checkStep, ht]
      by_cases hc : t.1 = cid
      · rw [hstep, hc, sourcesOf_addResult_eq]
        simp [hc, ht]
      · rw [hstep, sourcesOf_addResult_ne acc t.1 cid t.2.1 _ (fun h => hc h.symm)]
        simp [hc, ht]

theorem addResult_mem (acc : List (String × CheckResult)) (cid c' : String)
    (info : Info) (src : String × Bool × Latency) (r' : CheckResult)
    (h : (c', r') ∈ addResult acc cid info src) :
    (c', r') ∈ acc ∨
      (c' = cid ∧ (r'.sources = [src] ∨
        ∃ r, (c', r) ∈ acc ∧ r'.info = r.info ∧ r'.sources = r.sources ++ [src])) := by
  induction acc with
  | nil =>
    rw [addResult] at h
    rcases List.mem_singleton.mp h with h
    cases h
    exact Or.inr ⟨rfl, Or.inl rfl⟩
  | cons p rest ih =>
    obtain ⟨c, r⟩ := p
    by_cases hc : c = cid
    · rw [addResult, if_pos hc] at h
      rcases List.mem_cons.mp h with h | h
      · cases h
        exact Or.inr ⟨hc, Or.inr ⟨r, List.mem_cons_self _ _, rfl, rfl⟩⟩
      · exact Or.inl (List.mem_cons_of_mem _ h)
    · rw [addResult, if_neg hc] at h
      rcases List.mem_cons.mp h with h | h
      · cases h
        exact Or.inl (List.mem_cons_self _ _)
      · rcases ih h with h | ⟨hcid, hsrc⟩
        · exact Or.inl (List.mem_cons_of_mem _ h)
        · refine Or.inr ⟨hcid, ?_⟩
          rcases hsrc with hsrc | ⟨r0, hr0, hinfo, hsrc⟩
          · exact Or.inl hsrc
          · exact Or.inr ⟨r0, List.mem_cons_of_mem _ hr0, hinfo, hsrc⟩

/-- Invariant: every recorded tuple comes from a completed task's result. -/
theorem check_sources_from_env (tenv : TaskEnv) (tasks : List (String × Info × String))
    (acc : List (String × CheckResult))
    (hacc : ∀ cid r, (cid, r) ∈ acc → ∀ u v l, (u, v, l) ∈ r.sources → tenv u = some (v, l))
    (cid : String) (r : CheckResult) (h : (cid, r) ∈ tasks.foldl (checkStep tenv) acc) :
    ∀ u v l, (u, v, l) ∈ r.sources → tenv u = some (v, l) := by
  induction tasks generalizing acc with
  | nil => exact hacc cid r h
  | cons t ts ih =>
    rw [List.foldl_cons] at h
    refine ih (checkStep tenv acc t) ?_ h
    intro cid' r' hr' u v l hs
    cases ht : tenv t.2.2 with
    | none =>
      rw [checkStep, ht] at hr'
      exact hacc cid' r' hr' u v l hs
    | some vl =>
      obtain ⟨v0, l0⟩ := vl
      rw [checkStep, ht] at hr'
      rcases addResult_mem acc t.1 cid' t.2.1 (t.2.2, v0, l0) r' hr' with hmem | ⟨_, hcase⟩
      · exact hacc cid' r' hmem u v l hs
      · rcases hcase with hsrc | ⟨r0, hr0, _, hsrc⟩
        · rw [hsrc] at hs
          rcases List.mem_singleton.mp hs with hs
          cases hs
          exact ht
        · rw [hsrc] at hs
          rcases List.mem_append.mp hs with hs | hs
          · exact hacc cid' r0 hr0 u v l hs
          · rcases List.mem_singleton.mp hs with hs
            cases hs
            exact ht

theorem addResult_keys (acc : List (String × CheckResult)) (cid : String)
    (info : Info) (src : String × Bool × Latency) (c' : String)
    (h : c' ∈ (addResult acc cid info src).map (fun p => p.1)) :
    c' ∈ acc.map (fun p => p.1) ∨ c' = cid := by
  induction acc with
  | nil =>
    rw [addResult] at h
    simp at h
    exact Or.inr h
  | cons p rest ih =>
    obtain ⟨c, r⟩ := p
    by_cases hc : c = cid
    · rw [addResult, if_pos hc] at h
      simp only [List.map_cons, List.mem_cons] at h ⊢
      tauto
    · rw [addResult, if_neg hc] at h
      simp only [List.map_cons, List.mem_cons] at h ⊢
      rcases h with h | h
      · tauto
      · rcases ih h with h | h <;> tauto

theorem check_keys_sub (tenv : TaskEnv) (tasks : List (String × Info × String))
    (acc : List (String × CheckResult)) (cid : String)
    (h : cid ∈ (tasks.foldl (checkStep tenv) acc).map (fun p => p.1)) :
    cid ∈ acc.map (fun p => p.1) ∨ ∃ t ∈ tasks, t.1 = cid := by
  induction tasks generalizing acc with
  | nil => exact Or.inl h
  | cons t ts ih =>
    rw [List.foldl_cons] at h
    rcases ih (checkStep tenv acc t) h with h | ⟨t', ht', hcid⟩
    · cases htv : tenv t.2.2 with
      | none =>
        rw [checkStep, htv] at h
        exact Or.inl h
      | some vl =>
        obtain ⟨v, l⟩ := vl
        rw [checkStep, htv] at h
        rcases addResult_keys acc t.1 t.2.1 (t.2.2, v, l) cid h with h | h
        · exact Or.inl h
        · exact Or.inr ⟨t, List.mem_cons_self _ _, h.symm⟩
    · exact Or.inr ⟨t', List.mem_cons_of_mem _ ht', hcid⟩

theorem check_tasks_key_mem (channels : Channels) (t : String × Info × String)
    (h : t ∈ check_tasks channels) : t.1 ∈ channels.map (fun c => c.1) := by
  rw [check_tasks] at h
  rcases List.mem_flatMap.mp h with ⟨c, hc, ht⟩
  rcases List.mem_map.mp ht with ⟨u, _, hu⟩
  subst hu
  exact List.mem_map.mpr ⟨c, hc, rfl⟩

/-- The per-channel task contribution of a channel list that does not
contain the key `cid`. -/
theorem tasks_filterMap_not_mem (tenv : TaskEnv) (channels : Channels) (cid : String)
    (h : cid ∉ channels.map (fun c => c.1)) :
    (check_tasks channels).filterMap (fun t =>
      if t.1 = cid then (tenv t.2.2).map (fun vl => (t.2.2, vl.1, vl.2)) else none) = [] := by
  induction channels with
  | nil => rfl
  | cons c cs ih =>
    simp only [List.map_cons, List.mem_cons, not_or] at h
    rw [check_tasks, List.flatMap_cons, List.filterMap_append]
    have h1 : (c.2.2.map (fun u => (c.1, c.2.1, u))).filterMap (fun t =>
        if t.1 = cid then (tenv t.2.2).map (fun vl => (t.2.2, vl.1, vl.2)) else none) = [] := by
      rw [List.filterMap_map]
      apply List.filterMap_eq_nil_iff.mpr
      intro u _
      simp only [Function.comp]
      have hne : ¬c.1 = cid := fun hh => h.1 hh.symm
      rw [if_neg hne]
    rw [h1, ← check_tasks, ih h.2]
    rfl

theorem tasks_filterMap_mem (tenv : TaskEnv) (channels : Channels)
    (cid : String) (info : Info) (urls : List String)
    (hnd : (channels.map (fun c => c.1)).Nodup) (hmem : (cid, info, urls) ∈ channels) :
    (check_tasks channels).filterMap (fun t =>
      if t.1 = cid then (tenv t.2.2).map (fun vl => (t.2.2, vl.1, vl.2)) else none) =
      urls.filterMap (fun u => (tenv u).map (fun vl => (u, vl.1, vl.2))) := by
  induction channels with
  | nil => cases hmem
  | cons c cs ih =>
    rw [List.map_cons, List.nodup_cons] at hnd
    rw [check_tasks, List.flatMap_cons, List.filterMap_append, ← check_tasks]
    rcases List.mem_cons.mp hmem with hmem | hmem
    · subst hmem
      have h2 : (check_tasks cs).filterMap (fun t =>
          if t.1 = cid then (tenv t.2.2).map (fun vl => (t.2.2, vl.1, vl.2)) else none) = [] :=
        tasks_filterMap_not_mem tenv cs cid hnd.1
      rw [h2, List.append_nil, List.filterMap_map]
      apply List.filterMap_congr
      intro u _
      simp [Function.comp]
    · have hne : ¬c.1 = cid := by
        intro hh
        apply hnd.1
        rw [hh]
        exact List.mem_map.mpr ⟨(cid, info, urls), hmem, rfl⟩
      have h1 : (c.2.2.map (fun u => (c.1, c.2.1, u))).filterMap (fun t =>
          if t.1 = cid then (tenv t.2.2).map (fun vl => (t.2.2, vl.1, vl.2)) else none) = [] := by
        rw [List.filterMap_map]
        apply List.filterMap_eq_nil_iff.mpr
        intro u _
        simp only [Function.comp]
        rw [if_neg hne]
      rw [h1, List.nil_append, ih hnd.2 hmem]

theorem check_tasks_length (channels : Channels) :
    (check_tasks channels).length = (channels.map (fun c => c.2.2.length)).sum := by
  induction channels with
  | nil => rfl
  | cons c cs ih =>
    rw [check_tasks, List.flatMap_cons, List.length_append, List.length_map, ← check_tasks,
      ih, List.map_cons, List.sum_cons]

/-- C9: `check` dispatches exactly one probe task per `(channel, url)` pair
(N×M tasks for N channels of M URLs each); the returned mapping's key set is
a subset of the input key set; every recorded tuple is the actual result of
its task (so no `(url, false, ∞)` is synthesized for a task that raised);
and a channel's recorded source list consists of exactly its completed
tasks' results, in task order — a raising task is simply absent while the
remaining tasks still contribute. -/
theorem check_dispatch_and_drop (tenv : TaskEnv) (channels : Channels) :
    (check_tasks channels).length = (channels.map (fun c => c.2.2.length)).sum ∧
    (∀ M : Nat, (∀ c ∈ channels, c.2.2.length = M) →
      (check_tasks channels).length = channels.length * M) ∧
    (∀ cid, cid ∈ (check tenv channels).map (fun p => p.1) →
      cid ∈ channels.map (fun c => c.1)) ∧
    (∀ cid r, (cid, r) ∈ check tenv channels →
      ∀ u v l, (u, v, l) ∈ r.sources → tenv u = some (v, l)) ∧
    (∀ cid info urls, (channels.map (fun c => c.1)).Nodup → (cid, info, urls) ∈ channels →
      sourcesOf (check tenv channels) cid =
        urls.filterMap (fun u => (tenv u).map (fun vl => (u, vl.1, vl.2)))) := by
  refine ⟨check_tasks_length channels, ?_, ?_, ?_, ?_⟩
  · intro M hM
    rw [check_tasks_length]
    induction channels with
    | nil => simp
    | cons c cs ih =>
      rw [List.map_cons, List.sum_cons, hM c (List.mem_cons_self _ _),
        ih (fun c' hc' => hM c' (List.mem_cons_of_mem _ hc')), List.length_cons]
      ring
  · intro cid h
    rw [check_eq_foldl] at h
    rcases check_keys_sub tenv (check_tasks channels) [] cid h with h | ⟨t, ht, hcid⟩
    · simp at h
    · rw [← hcid]
      exact check_tasks_key_mem channels t ht
  · intro cid r hr
    rw [check_eq_foldl] at hr
    exact check_sources_from_env tenv (check_tasks channels) []
      (fun _ _ hmem => absurd hmem (List.not_mem_nil _)) cid r hr
  · intro cid info urls hnd hmem
    rw [check_eq_foldl, sourcesOf_foldl]
    rw [show sourcesOf [] cid = [] from rfl, List.nil_append]
    exact tasks_filterMap_mem tenv channels cid info urls hnd hmem

/-- Witness for C9 at a concrete input: two URLs for one channel, the second
task raising; the recorded source list holds exactly the first task's
result. -/
theorem check_dispatch_and_drop_witness :
    ((([("c1", [("title", "a")], ["u1", "u2"])] : Channels).map (fun c => c.1)).Nodup ∧
      ("c1", [("title", "a")], ["u1", "u2"]) ∈
        ([("c1", [("title", "a")], ["u1", "u2"])] : Channels)) ∧
    sourcesOf (check (fun u => if u = "u1" then some (true, (1 : Latency)) else none)
        [("c1", [("title", "a")], ["u1", "u2"])]) "c1" =
      ["u1", "u2"].filterMap (fun u =>
        ((fun u => if u = "u1" then some (true, (1 : Latency)) else none) u).map
          (fun vl => (u, vl.1, vl.2))) :=
  ⟨⟨by decide, by decide⟩,
    (check_dispatch_and_drop (fun u => if u = "u1" then some (true, (1 : Latency)) else none)
      [("c1", [("title", "a")], ["u1", "u2"])]).2.2.2.2 "c1" [("title", "a")] ["u1", "u2"]
      (by decide) (by decide)⟩

/-- C10: `verify_channel` returns the declared attribute mapping unchanged
as its second component in every outcome — skipped, passed, failed or
errored — never adding, removing or rewriting a declared attribute. -/
theorem verify_channel_frame (venv : VerifyEnv) (url : String) (info : Info) :
    (verify_channel venv url info).2 = info := by
  rw [verify_channel]
  split
  · rfl
  · split
    · rfl
    · rfl
    · rfl
    · split
      · rfl
      · split
        · rfl
        · split <;> rfl

/-- C3: the identity verifier is fail-open: it returns `is_verified = true`
whenever verification is skipped (no suspicion keyword and no broadcaster
marker in the declared title) and whenever the metadata inspection errors
(subprocess exception or JSON parse failure); it returns `false` only when
the inspection completes successfully, recovers an actual name, and that
name fails the matching rule. -/
theorem verify_channel_fail_open (venv : VerifyEnv) (url : String) (info : Info) :
    (needVerification (claimedNameOf info) = false →
      verify_channel venv url info = (true, info)) ∧
    (venv url = .exn → verify_channel venv url info = (true, info)) ∧
    (venv url = .okBadJson → verify_channel venv url info = (true, info)) ∧
    ((verify_channel venv url info).1 = false →
      needVerification (claimedNameOf info) = true ∧
      ∃ data actual, venv url = .ok data ∧ recoveredName data = some actual ∧
        (cctvMismatch (claimedNameOf info) (pyLower actual) = true ∨
          overlapDeficient (claimedNameOf info) (pyLower actual) = true)) := by
  refine ⟨?_, ?_, ?_, ?_⟩
  · intro h
    rw [verify_channel, if_pos h]
  · intro h
    rw [verify_channel]
    by_cases hneed : needVerification (claimedNameOf info) = false
    · rw [if_pos hneed]
    · rw [if_neg hneed, h]
  · intro h
    rw [verify_channel]
    by_cases hneed : needVerification (claimedNameOf info) = false
    · rw [if_pos hneed]
    · rw [if_neg hneed, h]
  · intro h
    by_cases hneed : needVerification (claimedNameOf info) = false
    · have hval : verify_channel venv url info = (true, info) := by
        rw [verify_channel, if_pos hneed]
      rw [hval] at h
      cases h
    · have hneedT : needVerification (claimedNameOf info) = true := by
        cases hb : needVerification (claimedNameOf info)
        · exact absurd hb hneed
        · rfl
      refine ⟨hneedT, ?_⟩
      cases hv : venv url with
      | exn =>
        have hval : verify_channel venv url info = (true, info) := by
          rw [verify_channel, if_neg hneed, hv]
        rw [hval] at h
        cases h
      | okBadJson =>
        have hval : verify_channel venv url info = (true, info) := by
          rw [verify_channel, if_neg hneed, hv]
        rw [hval] at h
        cases h
      | fail =>
        have hval : verify_channel venv url info = (true, info) := by
          rw [verify_channel, if_neg hneed, hv]
        rw [hval] at h
        cases h
      | ok data =>
        cases hr : recoveredName data with
        | none =>
          have hval : verify_channel venv url info = (true, info) := by
            rw [verify_channel, if_neg hneed, hv]
            show (match recoveredName data with
                  | none => (true, info)
                  | some actual =>
                    if cctvMismatch (claimedNameOf info) (pyLower actual) then (false, info)
                    else if overlapDeficient (claimedNameOf info) (pyLower actual) then
                      (false, info)
                    else (true, info)) = (true, info)
            rw [hr]
          rw [hval] at h
          cases h
        | some actual =>
          have hval : verify_channel venv url info =
              (if cctvMismatch (claimedNameOf info) (pyLower actual) then (false, info)
               else if overlapDeficient (claimedNameOf info) (pyLower actual) then (false, info)
               else (true, info)) := by
            rw [verify_channel, if_neg hneed, hv]
            show (match recoveredName data with
                  | none => (true, info)
                  | some actual =>
                    if cctvMismatch (claimedNameOf info) (pyLower actual) then (false, info)
                    else if overlapDeficient (claimedNameOf info) (pyLower actual) then
                      (false, info)
                    else (true, info)) = _
            rw [hr]
          rw [hval] at h
          refine ⟨data, actual, rfl, hr, ?_⟩
          by_cases h1 : cctvMismatch (claimedNameOf info) (pyLower actual) = true
          · exact Or.inl h1
          · by_cases h2 : overlapDeficient (claimedNameOf info) (pyLower actual) = true
            · exact Or.inr h2
            · rw [if_neg h1, if_neg h2] at h
              cases h

/-- Witness for C3: a suspicious (national-broadcaster) title with a probe
backend that always raises is still verified and retained. -/
theorem verify_channel_fail_open_witness :
    ((fun (_ : String) => VerifyOutcome.exn) "u" = .exn) ∧
    verify_channel (fun _ => .exn) "u" [("title", "cctv1")] = (true, [("title", "cctv1")]) :=
  ⟨rfl, (verify_channel_fail_open (fun _ => .exn) "u" [("title", "cctv1")]).2.1 rfl⟩

/-- C6 counterexample: for the declared title `espn` (which triggers
verification) and an inspection recovering the unrelated actual name `zdf`,
the token overlap is empty and no broadcaster-prefix condition applies, yet
`verify_channel` returns verified — because the code's threshold is
`min(1, len(claimed_tokens) // 3) = 0` for a 1-token declared name, so the
claim's "verification fails whenever the token overlap is empty" is false;
moreover a CJK name tokenizes as one maximal run, not atomic characters. -/
theorem verify_overlap_claim_false :
    needVerification (claimedNameOf [("title", "espn")]) = true ∧
    recoveredName c6Data = some "zdf" ∧
    cctvMismatch (claimedNameOf [("title", "espn")]) (pyLower "zdf") = false ∧
    overlapTokens (claimedNameOf [("title", "espn")]) (pyLower "zdf") = [] ∧
    (verify_channel (fun _ => .ok c6Data) "u" [("title", "espn")]).1 = true ∧
    wordRuns "卫视".data [] = ["卫视"] := by
  decide

/-- C6 (amended): when verification is triggered and a successful
inspection recovers an actual name, verification fails iff the declared
name contains `cctv` and the actual name does not, or the number of common
distinct word tokens is below `min 1 (⌊|declared tokens| / 3⌋)`; an empty
overlap therefore causes failure only when the declared name has at least
three distinct tokens, and CJK text tokenizes as maximal word-character
runs rather than single-character atoms. -/
theorem verify_channel_matching_rule (venv : VerifyEnv) (url : String) (info : Info)
    (data : FfprobeData) (actual : String)
    (hneed : needVerification (claimedNameOf info) = true)
    (hok : venv url = .ok data)
    (hname : recoveredName data = some actual) :
    ((verify_channel venv url info).1 = false ↔
      (cctvMismatch (claimedNameOf info) (pyLower actual) = true ∨
        overlapDeficient (claimedNameOf info) (pyLower actual) = true)) ∧
    (overlapDeficient (claimedNameOf info) (pyLower actual) = true ↔
      (overlapTokens (claimedNameOf info) (pyLower actual)).length <
        min 1 ((tokenSet (claimedNameOf info)).length / 3)) := by
  have hneed' : ¬needVerification (claimedNameOf info) = false := by
    rw [hneed]
    simp
  have hval : verify_channel venv url info =
      (if cctvMismatch (claimedNameOf info) (pyLower actual) then (false, info)
       else if overlapDeficient (claimedNameOf info) (pyLower actual) then (false, info)
       else (true, info)) := by
    rw [verify_channel, if_neg hneed', hok]
    show (match recoveredName data with
          | none => (true, info)
          | some actual =>
            if cctvMismatch (claimedNameOf info) (pyLower actual) then (false, info)
            else if overlapDeficient (claimedNameOf info) (pyLower actual) then (false, info)
            else (true, info)) = _
    rw [hname]
  constructor
  · rw [hval]
    by_cases h1 : cctvMismatch (claimedNameOf info) (pyLower actual) = true
    · simp [h1]
    · by_cases h2 : overlapDeficient (claimedNameOf info) (pyLower actual) = true <;>
        simp [h1, h2]
  · rw [overlapDeficient]
    exact ⟨fun hh => of_decide_eq_true hh, fun hh => decide_eq_true hh⟩

/-- Witness for the amended C6: a 3-token suspicious declared name with an
unrelated actual name fails verification. -/
theorem verify_channel_matching_rule_witness :
    (needVerification (claimedNameOf [("title", "fox aa bb")]) = true ∧
      recoveredName c6Data = some "zdf") ∧
    (verify_channel (fun _ => .ok c6Data) "u" [("title", "fox aa bb")]).1 = false :=
  ⟨⟨by decide, by decide⟩,
    (verify_channel_matching_rule (fun _ => .ok c6Data) "u" [("title", "fox aa bb")]
      c6Data "zdf" (by decide) rfl (by decide)).1.mpr (Or.inr (by decide))⟩

/- ## Resolver/Merger claims -/

theorem groupRecs_addGroup_eq (gs : List (String × List MergedRec)) (k : String)
    (m : MergedRec) : groupRecs (addGroup gs k m) k = groupRecs gs k ++ [m] := by
  induction gs with
  | nil => simp [addGroup, groupRecs]
  | cons g rest ih =>
    obtain ⟨k', recs⟩ := g
    by_cases hk : k' = k
    · rw [addGroup, if_pos hk]
      simp [groupRecs, hk]
    · rw [addGroup, if_neg hk]
      simp [groupRecs, hk, ih]

theorem groupRecs_addGroup_ne (gs : List (String × List MergedRec)) (k : String)
    (m : MergedRec) (c' : String) (hne : c' ≠ k) :
    groupRecs (addGroup gs k m) c' = groupRecs gs c' := by
  induction gs with
  | nil => simp [addGroup, groupRecs, Ne.symm hne]
  | cons g rest ih =>
    obtain ⟨k', recs⟩ := g
    by_cases hk : k' = k
    · rw [addGroup, if_pos hk]
      have h2 : ¬k' = c' := by rw [hk]; exact Ne.symm hne
      simp [groupRecs, h2]
    · rw [addGroup, if_neg hk]
      by_cases h2 : k' = c' <;> simp [groupRecs, h2, ih]

theorem groupRecs_not_mem (gs : List (String × List MergedRec)) (c : String)
    (h : c ∉ gs.map (fun g => g.1)) : groupRecs gs c = [] := by
  induction gs with
  | nil => rfl
  | cons g rest ih =>
    obtain ⟨k, recs⟩ := g
    simp only [List.map_cons, List.mem_cons, not_or] at h
    rw [groupRecs, if_neg (fun hh => h.1 hh.symm)]
    exact ih h.2

theorem groupRecs_of_mem (gs : List (String × List MergedRec))
    (hnd : (gs.map (fun g => g.1)).Nodup) (k : String) (recs : List MergedRec)
    (h : (k, recs) ∈ gs) : groupRecs gs k = recs := by
  induction gs with
  | nil => cases h
  | cons g rest ih =>
    obtain ⟨k', recs'⟩ := g
    rw [List.map_cons, List.nodup_cons] at hnd
    rcases List.mem_cons.mp h with h | h
    · cases h
      rw [groupRecs, if_pos rfl]
    · have hk : ¬k' = k := by
        intro hh
        apply hnd.1
        rw [hh]
        exact List.mem_map.mpr ⟨(k, recs), h, rfl⟩
      rw [groupRecs, if_neg hk]
      exact ih hnd.2 h

theorem addGroup_keysEq (gs : List (String × List MergedRec)) (k : String) (m : MergedRec) :
    (addGroup gs k m).map (fun g => g.1) =
      if k ∈ gs.map (fun g => g.1) then gs.map (fun g => g.1)
      else gs.map (fun g => g.1) ++ [k] := by
  induction gs with
  | nil => simp [addGroup]
  | cons g rest ih =>
    obtain ⟨k', recs⟩ := g
    by_cases hk : k' = k
    · subst hk
      rw [addGroup, if_pos rfl]
      simp
    · rw [addGroup, if_neg hk]
      simp only [List.map_cons, ih]
      by_cases hmem : k ∈ rest.map (fun g => g.1)
      · rw [if_pos hmem, if_pos (List.mem_cons_of_mem _ hmem)]
      · have hnotin : k ∉ k' :: rest.map (fun g => g.1) := by
          simp only [List.mem_cons, not_or]
          exact ⟨fun hh => hk hh.symm, hmem⟩
        rw [if_neg hmem, if_neg hnotin, List.cons_append]

theorem addGroup_keys_nodup (gs : List (String × List MergedRec)) (k : String)
    (m : MergedRec) (h : (gs.map (fun g => g.1)).Nodup) :
    ((addGroup gs k m).map (fun g => g.1)).Nodup := by
  rw [addGroup_keysEq]
  by_cases hmem : k ∈ gs.map (fun g => g.1)
  · rw [if_pos hmem]
    exact h
  · rw [if_neg hmem]
    simp [List.nodup_append, h, hmem]

theorem groupsOf_keys_nodup (venv : VerifyEnv) (results : List (String × CheckResult)) :
    ((groupsOf venv results).map (fun g => g.1)).Nodup := by
  suffices hgen : ∀ gs, (gs.map (fun g => g.1)).Nodup →
      (((results.foldl (groupStep venv) gs)).map (fun g => g.1)).Nodup by
    exact hgen [] (by simp)
  induction results with
  | nil => intro gs h; exact h
  | cons e es ih =>
    intro gs h
    rw [List.foldl_cons]
    apply ih
    cases hp : processEntry venv e.2 with
    | none => simpa [groupStep, hp] using h
    | some m =>
      simp only [groupStep, hp]
      exact addGroup_keys_nodup _ _ _ h

theorem foldl_groupRecs (venv : VerifyEnv) (results : List (String × CheckResult))
    (gs : List (String × List MergedRec)) (c : String) :
    groupRecs (results.foldl (groupStep venv) gs) c =
      groupRecs gs c ++ bestsOf venv results c := by
  induction results generalizing gs with
  | nil => simp [bestsOf]
  | cons e es ih =>
    rw [List.foldl_cons]
    cases hp : processEntry venv e.2 with
    | none =>
      have hstep : groupStep venv gs e = gs := by simp [groupStep, hp]
      rw [hstep, ih]
      have hb : bestsOf venv (e :: es) c = bestsOf venv es c := by
        by_cases hc : entryCanon e.2 = c <;> simp [bestsOf, List.filterMap_cons, hc, hp]
      rw [hb]
    | some m =>
      have hstep : groupStep venv gs e = addGroup gs (entryCanon e.2) m := by
        simp [groupStep, hp]
      rw [hstep, ih]
      by_cases hc : entryCanon e.2 = c
      · rw [hc, groupRecs_addGroup_eq]
        have hb : bestsOf venv (e :: es) c = m :: bestsOf venv es c := by
          simp [bestsOf, List.filterMap_cons, hc, hp]
        rw [hb, List.append_assoc, List.singleton_append]
      · rw [groupRecs_addGroup_ne gs (entryCanon e.2) m c (fun hh => hc hh.symm)]
        have hb : bestsOf venv (e :: es) c = bestsOf venv es c := by
          simp [bestsOf, List.filterMap_cons, hc, hp]
        rw [hb]

theorem groupsOf_recs (venv : VerifyEnv) (results : List (String × CheckResult))
    (c : String) : groupRecs (groupsOf venv results) c = bestsOf venv results c := by
  simpa using foldl_groupRecs venv results [] c

theorem mergeGroups_filter (gs : List (String × List MergedRec)) (c : String)
    (hnd : (gs.map (fun g => g.1)).Nodup) :
    (mergeGroups gs).filter (fun p => decide (p.1 = c)) =
      match (sortK (fun m => m.latency) (groupRecs gs c)).head? with
      | none => []
      | some b => [(c, b)] := by
  induction gs with
  | nil => rfl
  | cons g rest ih =>
    obtain ⟨k, recs⟩ := g
    rw [List.map_cons, List.nodup_cons] at hnd
    simp only [mergeGroups, List.filterMap_cons]
    by_cases hk : k = c
    · subst hk
      have hrest : groupRecs rest k = [] := groupRecs_not_mem rest k hnd.1
      have hfr : (mergeGroups rest).filter (fun p => decide (p.1 = k)) = [] := by
        have := ih hnd.2
        rw [hrest] at this
        exact this
      have hgr : groupRecs ((k, recs) :: rest) k = recs := by
        rw [groupRecs, if_pos rfl]
      cases hh : (sortK (fun m => m.latency) recs).head? with
      | none =>
        simp only [hh, Option.map_none']
        rw [hgr, hh]
        exact hfr
      | some b =>
        simp only [hh, Option.map_some']
        rw [hgr, hh, List.filter_cons, if_pos (by simp)]
        show (k, b) :: (mergeGroups rest).filter (fun p => decide (p.1 = k)) = _
        rw [hfr]
    · have hgr : groupRecs ((k, recs) :: rest) c = groupRecs rest c := by
        rw [groupRecs, if_neg hk]
      rw [hgr]
      cases hh : (sortK (fun m => m.latency) recs).head? with
      | none =>
        simp only [hh, Option.map_none']
        exact ih hnd.2
      | some b =>
        simp only [hh, Option.map_some']
        rw [List.filter_cons, if_neg (by simpa using hk)]
        exact ih hnd.2

theorem bests_firstMin (venv : VerifyEnv) (results : List (String × CheckResult))
    (c : String) :
    Option.map pairOf (firstMinK (fun m => m.latency) (bestsOf venv results c)) =
      firstMinK (fun s => s.2) (allVVS venv results c) := by
  induction results with
  | nil => rfl
  | cons e es ih =>
    by_cases hc : entryCanon e.2 = c
    · have hall : allVVS venv (e :: es) c = entryVVS venv e.2 ++ allVVS venv es c := by
        simp [allVVS, List.filter_cons, hc]
      rw [hall, firstMinK_append]
      cases hp : (sortK (fun s => s.2) (entryVVS venv e.2)).head? with
      | none =>
        have hfm : firstMinK (fun s => s.2) (entryVVS venv e.2) = none := by
          rw [← head?_sortK]
          exact hp
        have hb : bestsOf venv (e :: es) c = bestsOf venv es c := by
          simp [bestsOf, List.filterMap_cons, hc, processEntry, hp]
        rw [hb, hfm]
        simpa [combineK] using ih
      | some best =>
        have hfm : firstMinK (fun s => s.2) (entryVVS venv e.2) = some best := by
          rw [← head?_sortK]
          exact hp
        have hb : bestsOf venv (e :: es) c =
            ⟨entryInfo e.2, best.1, best.2⟩ :: bestsOf venv es c := by
          simp [bestsOf, List.filterMap_cons, hc, processEntry, hp]
        rw [hb, hfm, firstMinK_cons]
        cases hq : firstMinK (fun m => m.latency) (bestsOf venv es c) with
        | none =>
          rw [hq] at ih
          rw [← ih]
          simp [combineK, pairOf]
        | some m' =>
          rw [hq] at ih
          rw [← ih]
          by_cases hle : (best.2 : Latency) ≤ m'.latency
          · simp [combineK, pairOf, hle]
          · simp [combineK, pairOf, hle]
    · have hall : allVVS venv (e :: es) c = allVVS venv es c := by
        simp [allVVS, List.filter_cons, hc]
      have hb : bestsOf venv (e :: es) c = bestsOf venv es c := by
        simp [bestsOf, List.filterMap_cons, hc]
      rw [hall, hb]
      exact ih

/-- C1: for every canonical name with at least one valid, verified source
among the contributing channels, `merge` emits exactly one output entry for
that name, and its selected source/latency pair is a member of the
contributed source list attaining the minimum latency; moreover it is the
first-encountered such source in input iteration order (every source before
it has strictly larger latency). -/
theorem merge_one_min_latency (venv : VerifyEnv) (results : List (String × CheckResult))
    (c : String) (h : allVVS venv results c ≠ []) :
    ((merge venv results).filter (fun p => decide (p.1 = c))).length = 1 ∧
    ∃ m : MergedRec, (c, m) ∈ merge venv results ∧
      (m.source, m.latency) ∈ allVVS venv results c ∧
      (∀ s ∈ allVVS venv results c, m.latency ≤ s.2) ∧
      ∃ l1 l2, allVVS venv results c = l1 ++ (m.source, m.latency) :: l2 ∧
        ∀ s ∈ l1, m.latency < s.2 := by
  cases hp : firstMinK (fun s => s.2) (allVVS venv results c) with
  | none => exact absurd ((firstMinK_eq_none _ _).mp hp) h
  | some p =>
    have hbm := bests_firstMin venv results c
    rw [hp] at hbm
    obtain ⟨m, hm, hpm⟩ := Option.map_eq_some'.mp hbm
    have hhead : (sortK (fun mm => mm.latency) (groupRecs (groupsOf venv results) c)).head? =
        some m := by
      rw [head?_sortK, groupsOf_recs]
      exact hm
    have hfil := mergeGroups_filter (groupsOf venv results) c (groupsOf_keys_nodup venv results)
    rw [hhead] at hfil
    have hfil' : (merge venv results).filter (fun p => decide (p.1 = c)) = [(c, m)] := hfil
    obtain ⟨hmem, hmin, l1, l2, hsplit, hstrict⟩ := firstMinK_spec (fun s => s.2) _ p hp
    constructor
    · rw [hfil']
      rfl
    · refine ⟨m, ?_, ?_, ?_, ?_⟩
      · have hmf : (c, m) ∈ (merge venv results).filter (fun p => decide (p.1 = c)) := by
          rw [hfil']
          exact List.mem_singleton.mpr rfl
        exact List.mem_of_mem_filter hmf
      · show pairOf m ∈ allVVS venv results c
        rw [hpm]
        exact hmem
      · intro s hs
        have hps := hmin s hs
        have hml : m.latency = p.2 := by rw [← hpm]; rfl
        rw [hml]
        exact hps
      · refine ⟨l1, l2, ?_, ?_⟩
        · have hpe : (m.source, m.latency) = p := hpm
          rw [hpe]
          exact hsplit
        · intro s hs
          have hml : m.latency = p.2 := by rw [← hpm]; rfl
          rw [hml]
          exact hstrict s hs

/-- C4: every entry `merge` emits is backed by a contributing channel with
at least one valid, verified source; contrapositively, a channel group all
of whose probe results are invalid (or fail identity verification) produces
no output entry at all — a hard drop, never a placeholder. -/
theorem merge_drops_sourceless (venv : VerifyEnv) (results : List (String × CheckResult))
    (c : String) (m : MergedRec) (h : (c, m) ∈ merge venv results) :
    ∃ e ∈ results, entryCanon e.2 = c ∧ entryVVS venv e.2 ≠ [] := by
  obtain ⟨g, hg, hsome⟩ := List.mem_filterMap.mp h
  obtain ⟨b, hb, hcb⟩ := Option.map_eq_some'.mp hsome
  have hc : g.1 = c := congrArg Prod.fst hcb
  have hmemg : (c, g.2) ∈ groupsOf venv results := by
    rw [← hc]
    exact hg
  have hgrec : groupRecs (groupsOf venv results) c = g.2 :=
    groupRecs_of_mem _ (groupsOf_keys_nodup venv results) c g.2 hmemg
  have hbests : bestsOf venv results c ≠ [] := by
    intro hnil
    rw [groupsOf_recs] at hgrec
    rw [hnil] at hgrec
    rw [← hgrec] at hb
    cases hb
  obtain ⟨x, hx⟩ := List.exists_mem_of_ne_nil _ hbests
  obtain ⟨e, he, hsome2⟩ := List.mem_filterMap.mp hx
  by_cases hce : entryCanon e.2 = c
  · refine ⟨e, he, hce, ?_⟩
    intro hnilv
    rw [if_pos hce, processEntry, hnilv] at hsome2
    cases hsome2
  · rw [if_neg hce] at hsome2
    cases hsome2

/-- Witness for C1: both channels collapse into one `CCTV-1 综合` entry that
selects the 2-second source. -/
theorem merge_one_min_latency_witness :
    allVVS mVenv0 mResults0 "CCTV-1 综合" ≠ [] ∧
    (((merge mVenv0 mResults0).filter (fun p => decide (p.1 = "CCTV-1 综合"))).length = 1 ∧
      ∃ m : MergedRec, ("CCTV-1 综合", m) ∈ merge mVenv0 mResults0 ∧
        (m.source, m.latency) ∈ allVVS mVenv0 mResults0 "CCTV-1 综合" ∧
        (∀ s ∈ allVVS mVenv0 mResults0 "CCTV-1 综合", m.latency ≤ s.2) ∧
        ∃ l1 l2, allVVS mVenv0 mResults0 "CCTV-1 综合" = l1 ++ (m.source, m.latency) :: l2 ∧
          ∀ s ∈ l1, m.latency < s.2) :=
  ⟨by decide, merge_one_min_latency mVenv0 mResults0 "CCTV-1 综合" (by decide)⟩

/-- Witness for C4: the emitted entry is backed by a channel with a valid
verified source. -/
theorem merge_drops_sourceless_witness :
    ("CCTV-1 综合",
        (⟨[("title", "CCTV-1 综合")], "http://c", (2 : Latency)⟩ : MergedRec)) ∈
      merge mVenv0 mResults0 ∧
    ∃ e ∈ mResults0, entryCanon e.2 = "CCTV-1 综合" ∧ entryVVS mVenv0 e.2 ≠ [] :=
  ⟨by decide,
    merge_drops_sourceless mVenv0 mResults0 "CCTV-1 综合"
      ⟨[("title", "CCTV-1 综合")], "http://c", (2 : Latency)⟩ (by decide)⟩

theorem lastIdxFrom_eq_none (base : Nat) (g : String) (cats : List String) :
    lastIdxFrom base g cats = none ↔ g ∉ cats := by
  induction cats generalizing base with
  | nil => simp [lastIdxFrom]
  | cons c cs ih =>
    rw [lastIdxFrom]
    cases hl : lastIdxFrom (base + 1) g cs with
    | some i =>
      have hmem : g ∈ cs := by
        by_contra hng
        rw [(ih (base + 1)).mpr hng] at hl
        cases hl
      constructor
      · intro hcon
        exact Option.noConfusion hcon
      · intro hnot
        exact absurd (List.mem_cons_of_mem c hmem) hnot
    | none =>
      have hng : g ∉ cs := (ih (base + 1)).mp hl
      by_cases hc : c = g
      · rw [if_pos hc]
        constructor
        · intro hcon
          exact Option.noConfusion hcon
        · intro hnot
          exact absurd (by rw [hc]; exact List.mem_cons_self g cs) hnot
      · rw [if_neg hc]
        constructor
        · intro _ hmem
          rcases List.mem_cons.mp hmem with hmem | hmem
          · exact hc hmem.symm
          · exact hng hmem
        · intro _
          rfl

theorem lastIdxFrom_lt (base : Nat) (g : String) (cats : List String) (i : Nat)
    (h : lastIdxFrom base g cats = some i) : i < base + cats.length := by
  induction cats generalizing base i with
  | nil => cases h
  | cons c cs ih =>
    rw [lastIdxFrom] at h
    cases hl : lastIdxFrom (base + 1) g cs with
    | some j =>
      rw [hl] at h
      have h' : some j = some i := h
      injection h' with hji
      subst hji
      have h2 := ih (base + 1) j hl
      simp only [List.length_cons]
      omega
    | none =>
      rw [hl] at h
      by_cases hc : c = g
      · rw [if_pos hc] at h
        have h' : some base = some i := h
        injection h' with hbi
        subst hbi
        simp only [List.length_cons]
        omega
      · rw [if_neg hc] at h
        cases h

/-- C8 counterexample: with the configured order `["其他", "新闻"]`, a
channel with a missing `group-title` defaults to the category `其他` and
receives rank 0 — not the table length 2 — and therefore sorts *before* the
channel with the known category `新闻`, contradicting the claim that every
channel with missing group-title gets rank = table length and sorts after
all known categories. -/
theorem category_rank_claim_false :
    getInfo [("title", "b")] "group-title" = none ∧
    categoryRank ["其他", "新闻"] [("title", "b")] = 0 ∧
    (["其他", "新闻"] : List String).length = 2 ∧
    categoryRank ["其他", "新闻"] [("group-title", "新闻")] = 1 ∧
    sort_channels_by_category ["其他", "新闻"] [c8A, c8B] = [c8B, c8A] := by
  decide

/-- C8 (amended): the sort key is the index of `attributes["group-title"]`
in the configured category order, where a missing `group-title` first
defaults to the category `其他` and a known category's rank is its last
index in the configured list (the dict comprehension's override); a channel
whose (defaulted) category does not occur in the order gets rank equal to
the number of *distinct* configured categories (`len(category_order)`, the
dict's length); when the configured order has no duplicate category — so
that this default equals the table length — every known category's rank is
strictly smaller and such channels sort after all channels with known
categories; the sort is stable: channels with equal rank preserve their
relative input order. -/
theorem category_sort_ranked_stable (cats : List String)
    (channels : List (String × MergedRec)) :
    (∀ info g, getInfo info "group-title" = some g → g ∉ cats →
      categoryRank cats info = cats.dedup.length) ∧
    (∀ info, getInfo info "group-title" = none → "其他" ∉ cats →
      categoryRank cats info = cats.dedup.length) ∧
    (cats.Nodup → cats.dedup.length = cats.length) ∧
    (∀ info, categoryRank cats info ≤ cats.length) ∧
    (∀ info g, getInfo info "group-title" = some g → g ∈ cats →
      categoryRank cats info < cats.length) ∧
    (sort_channels_by_category cats channels).Pairwise
      (fun a b => categoryRank cats a.2.info ≤ categoryRank cats b.2.info) ∧
    (sort_channels_by_category cats channels).Perm channels ∧
    (∀ r, (sort_channels_by_category cats channels).filter
        (fun ch => decide (categoryRank cats ch.2.info = r)) =
      channels.filter (fun ch => decide (categoryRank cats ch.2.info = r))) := by
  refine ⟨?_, ?_, ?_, ?_, ?_, ?_, ?_, ?_⟩
  · intro info g hg hnot
    rw [categoryRank, hg]
    simp only [Option.getD_some]
    rw [(lastIdxFrom_eq_none 0 g cats).mpr hnot]
  · intro info hg hnot
    rw [categoryRank, hg]
    simp only [Option.getD_none]
    rw [(lastIdxFrom_eq_none 0 "其他" cats).mpr hnot]
  · intro hnd
    rw [List.Nodup.dedup hnd]
  · intro info
    rw [categoryRank]
    cases hl : lastIdxFrom 0 ((getInfo info "group-title").getD "其他") cats with
    | some i =>
      show i ≤ cats.length
      have h2 := lastIdxFrom_lt 0 _ cats i hl
      omega
    | none =>
      show cats.dedup.length ≤ cats.length
      exact List.Sublist.length_le (List.dedup_sublist cats)
  · intro info g hg hmem
    rw [categoryRank, hg]
    simp only [Option.getD_some]
    cases hl : lastIdxFrom 0 g cats with
    | some i =>
      show i < cats.length
      have h2 := lastIdxFrom_lt 0 g cats i hl
      omega
    | none =>
      exact absurd ((lastIdxFrom_eq_none 0 g cats).mp hl) (fun hn => hn hmem)
  · exact sortK_sorted _ channels
  · exact sortK_perm _ channels
  · intro r
    exact filter_sortK _ channels r

/-- Witness for the amended C8: a present-but-unknown category gets the
default rank, the number of distinct configured categories. -/
theorem category_sort_ranked_stable_witness :
    (getInfo [("group-title", "体育")] "group-title" = some "体育" ∧
      "体育" ∉ (["新闻"] : List String)) ∧
    categoryRank ["新闻"] [("group-title", "体育")] =
      (["新闻"] : List String).dedup.length :=
  ⟨⟨by decide, by decide⟩,
    (category_sort_ranked_stable ["新闻"] []).1 [("group-title", "体育")] "体育"
      (by decide) (by decide)⟩
